import Mathlib

/-!
Verification development for the sqlite-helper repository.

The repository mediates structured requests against SQLite database files.
This file shallowly embeds the core components that the verified properties
talk about:

* lexical path handling (`rustComponents`, `canonicalizeLossy`,
  `normalize_lexical`, `validate_db_path`) from
  `src/adapters/mcp/server.rs` and `src/core/connection.rs`;
* the identifier validators and `list_columns` from `src/core/schema.rs`;
* the pagination loop of `run_query` and `run_execute` from
  `src/core/query.rs`;
* the effective row cap from `src/core/limits.rs`;
* the per-database worker loop `db_worker_main` and the registry
  `ensure_worker` from `src/core/connection.rs`.

The SQLite engine itself is out of scope and is represented by abstract
operations on an abstract connection state.
-/

namespace SqliteHelper

/-! ## Paths

A raw path is a sequence of textual segments plus an absoluteness flag.
`Seg.dot` and `Seg.dotdot` are the literal `.` and `..` segments.
Windows prefixes are not modelled (the properties under study are
prefix-independent). -/

inductive Seg where
  | dot : Seg
  | dotdot : Seg
  | name : String → Seg
deriving DecidableEq

structure RPath where
  absolute : Bool
  segs : List Seg
deriving DecidableEq

/-- Components in the sense of Rust `std::path::Component`: a root marker,
`CurDir`, `ParentDir`, or a normal named component. -/
inductive Comp where
  | root : Comp
  | cur : Comp
  | parent : Comp
  | cname : String → Comp
deriving DecidableEq

/-- Keep a segment as a component, eliding `.` segments (as Rust
`Path::components` does away from the start of a relative path). -/
def segComp : Seg → Option Comp
  | Seg.dot => none
  | Seg.dotdot => some Comp.parent
  | Seg.name s => some (Comp.cname s)

/-- Component sequence of a path, following Rust `Path::components`:
`.` segments are normalized away, except a leading `.` of a relative path,
which is kept as `CurDir`; an absolute path starts with the root component.
Rust `PathBuf` equality and hashing (hence `HashMap` keys in the
connection registry) compare exactly this sequence. -/
def rustComponents (p : RPath) : List Comp :=
  let core := p.segs.filterMap segComp
  if p.absolute then
    Comp.root :: core
  else
    match p.segs with
    | Seg.dot :: _ => Comp.cur :: core
    | _ => core

/-- Rust `PathBuf::join`/`push` with a relative right operand: the
segments are appended. -/
def joinPath (base p : RPath) : RPath :=
  ⟨base.absolute, base.segs ++ p.segs⟩

/-- Embeds `canonicalize_lossy` (`core/connection.rs`): an absolute path is
returned unchanged, a relative one is joined onto the current working
directory.  No `.`/`..` resolution is performed. -/
def canonicalize_lossy (cwd : RPath) (p : RPath) : RPath :=
  if p.absolute then p else joinPath cwd p

/-- Rust `PathBuf::pop`: remove the last component; fails on an empty path
or a bare root. -/
def pbPop : List Comp → Option (List Comp)
  | [] => none
  | [Comp.root] => none
  | out => some out.dropLast

/-- One step of the accumulation loop of `normalize_lexical`
(`adapters/mcp/server.rs`): `.` is skipped; `..` pops the accumulated path
when possible and otherwise leaves it unchanged; every other component is
pushed. -/
def normStep (out : List Comp) : Comp → List Comp
  | Comp.cur => out
  | Comp.parent =>
      match pbPop out with
      | some o => o
      | none => out
  | c => out ++ [c]

/-- Embeds `normalize_lexical` (`adapters/mcp/server.rs`): fold the
component sequence of the path through `normStep`. -/
def normalize_lexical (p : RPath) : List Comp :=
  (rustComponents p).foldl normStep []

/-- True when the accumulated path ends in a normal (named) segment, i.e.
there is a retained segment that a `..` could pop. -/
def lastIsName (out : List Comp) : Bool :=
  match out.getLast? with
  | some (Comp.cname _) => true
  | _ => false

/-- Modelled from the spec (§4.1 normalization rules, the claim under
study): drop `.` segments; on `..`, pop the last retained segment if one
exists, otherwise KEEP the `..` in place in the output. -/
def specKeepStep (out : List Comp) : Comp → List Comp
  | Comp.cur => out
  | Comp.parent =>
      if lastIsName out then out.dropLast else out ++ [Comp.parent]
  | c => out ++ [c]

/-- Normalization as the spec sentence describes it (unpoppable `..` kept
in place). -/
def specNormalizeKeep (p : RPath) : List Comp :=
  (rustComponents p).foldl specKeepStep []

/-- Amended normalization rule: drop `.`; on `..`, pop the last retained
segment if one exists, otherwise DROP the `..` (the accumulated output is
left unchanged). -/
def specDropStep (out : List Comp) : Comp → List Comp
  | Comp.cur => out
  | Comp.parent =>
      if lastIsName out then out.dropLast else out
  | c => out ++ [c]

/-- Normalization under the amended rule (unpoppable `..` dropped). -/
def specNormalizeDrop (p : RPath) : List Comp :=
  (rustComponents p).foldl specDropStep []

/-- Rust `Path::starts_with`: whole-component prefix test.
`startsWithComps self base` is true when `base` is a component prefix of
`self`. -/
def startsWithComps : List Comp → List Comp → Bool
  | _, [] => true
  | [], _ :: _ => false
  | a :: as, b :: bs => a == b && startsWithComps as bs

/-! ## Error taxonomy and result types (`error.rs`, `core/types.rs`) -/

/-- Embeds `AppError` (`error.rs`); payloads are reduced to what the
properties observe (the path carried by `PathNotAllowed`, message strings
elsewhere). -/
inductive AppErr where
  | invalidRequest : String → AppErr
  | pathNotAllowed : List Comp → AppErr
  | dbOpenFailed : String → AppErr
  | sqlError : String → AppErr
  | notReadonly : AppErr
  | timeout : AppErr
  | ioError : String → AppErr
  | internal : String → AppErr
deriving DecidableEq

/-- Embeds `ColumnMeta` (`core/types.rs`). -/
structure ColumnMeta where
  name : String
  decl_type : Option String
  sqlite_type : Option String
deriving DecidableEq

/-- Embeds `ExecResult` (`core/types.rs`). -/
structure ExecResult where
  changes : Nat
  last_insert_rowid : Option Int
deriving DecidableEq

/-- Embeds `Limits` (`core/types.rs`). -/
structure Limits where
  max_rows : Nat
deriving DecidableEq

/-- Embeds `effective_limit` (`core/limits.rs`):
`requested.unwrap_or(max_rows).min(max_rows).max(1)`. -/
def effective_limit (requested : Option Nat) (max_rows : Nat) : Limits :=
  ⟨((requested.getD max_rows).min max_rows).max 1⟩

/-! ## Identifier validation and `list_columns` (`core/schema.rs`)

Strings to be validated are modelled as lists of characters. -/

/-- Rust `char::is_ascii_alphabetic`. -/
def isAsciiAlphabetic (c : Char) : Bool :=
  (('A' ≤ c) && (c ≤ 'Z')) || (('a' ≤ c) && (c ≤ 'z'))

/-- Rust `char::is_ascii_alphanumeric`. -/
def isAsciiAlphanumeric (c : Char) : Bool :=
  isAsciiAlphabetic c || (('0' ≤ c) && (c ≤ '9'))

/-- Embeds `is_safe_identifier` (`core/schema.rs`): a first character that
is ASCII alphabetic or `_`, followed only by ASCII alphanumerics or `_`.
The empty string is rejected. -/
def is_safe_identifier : List Char → Bool
  | [] => false
  | first :: rest =>
      (isAsciiAlphabetic first || (first == '_')) &&
        rest.all (fun c => isAsciiAlphanumeric c || (c == '_'))

/-- Rust `str::split('.')`: the list of `.`-separated pieces; always
non-empty, and empty pieces are kept. -/
def splitOnDot : List Char → List (List Char)
  | [] => [[]]
  | c :: rest =>
      if c = '.' then
        [] :: splitOnDot rest
      else
        match splitOnDot rest with
        | [] => [[c]]
        | piece :: pieces => (c :: piece) :: pieces

/-- Embeds `is_safe_table_ref` (`core/schema.rs`): either a single safe
identifier or `schema.table` with both pieces safe and exactly one dot. -/
def is_safe_table_ref (s : List Char) : Bool :=
  match splitOnDot s with
  | [] => false
  | first :: parts =>
      if !is_safe_identifier first then false
      else
        match parts with
        | [] => true
        | second :: more => if more ≠ [] then false else is_safe_identifier second

/-- Modelled from the spec (§4.2 grammar words): a single identifier
matching the regular expression [A-Za-z_][A-Za-z0-9_]*. -/
def identGrammar : List Char → Bool
  | [] => false
  | c :: cs =>
      (isAsciiAlphabetic c || (c == '_')) &&
        cs.all (fun d => isAsciiAlphanumeric d || (d == '_'))

/-- Modelled from the spec (§4.2 grammar words): an identifier, optionally
`schema.table` with both segments identifiers and at most one `.`
separator. -/
def tableRefGrammar (s : List Char) : Bool :=
  match splitOnDot s with
  | [a] => identGrammar a
  | [a, b] => identGrammar a && identGrammar b
  | _ => false

/-- Embeds the validation-then-introspection structure of `list_columns`
(`core/schema.rs`).  `introspect` stands for the engine's
`PRAGMA table_info` facility, which is only consulted after the table name
passes `is_safe_identifier`. -/
def list_columns (introspect : List Char → List ColumnMeta) (table : List Char) :
    Except AppErr (List ColumnMeta) :=
  if !is_safe_identifier table then
    Except.error (AppErr.invalidRequest ("invalid table identifier: " ++ String.mk table))
  else
    Except.ok (introspect table)

/-! ## Pagination (`core/query.rs`, `run_query`)

The row-fetch loop of `run_query` is modelled over an explicit list of the
rows the prepared statement would yield.  `engineFetches` instruments how
many rows the loop actually pulled from the engine. -/

structure QueryOut (α : Type) where
  rows : List α
  truncated : Bool
  next_offset : Option Nat
  engineFetches : Nat
deriving DecidableEq

/-- Embeds the `while let Some(row) = r.next()` loop of `run_query`
(`core/query.rs` lines 40–48): a fetched row is dropped and the loop broken
once `limit` rows are already collected, recording `truncated` and
`next_offset = offset.unwrap_or(0) + rows.len()`. -/
def fetchLoop (limit off0 : Nat) (acc : List α) : List α → QueryOut α
  | [] => ⟨acc, false, none, 0⟩
  | r :: rest =>
      if limit ≤ acc.length then
        ⟨acc, true, some (off0 + acc.length), 1⟩
      else
        let o := fetchLoop limit off0 (acc ++ [r]) rest
        { o with engineFetches := o.engineFetches + 1 }

/-- The row stream the prepared statement yields in `run_query`: when an
offset is given the executed statement is
`SELECT * FROM (sql) LIMIT limit OFFSET off`, so the engine itself applies
the window; otherwise the inner statement's rows are streamed unchanged. -/
def engineStream (dbRows : List α) (limit : Nat) (offset : Option Nat) : List α :=
  match offset with
  | some off => (dbRows.drop off).take limit
  | none => dbRows

/-- Embeds `run_query` (`core/query.rs`) over an explicit result set
`dbRows` of the inner statement. -/
def run_query (dbRows : List α) (limit : Nat) (offset : Option Nat) : QueryOut α :=
  fetchLoop limit (offset.getD 0) [] (engineStream dbRows limit offset)

/-! ## Path sandboxing (`adapters/mcp/server.rs`, `validate_db_path`) -/

/-- The `for d in allowed_dirs` loop of `validate_db_path`: is some allowed
directory, lexically normalized, a component prefix of the normalized
path? -/
def anyAllowed (absNorm : List Comp) : List RPath → Bool
  | [] => false
  | d :: ds => startsWithComps absNorm (normalize_lexical d) || anyAllowed absNorm ds

/-- Embeds `validate_db_path` (`adapters/mcp/server.rs`): resolve the path
against the current working directory, accept anything when the allow-list
is empty, otherwise require some allowed root to be a lexical prefix of the
normalized path; on failure return `PathNotAllowed` carrying the
normalized resolved path.  The decision is a pure function of its
arguments (no filesystem access). -/
def validate_db_path (cwd : RPath) (db_path : RPath) (allowed_dirs : List RPath) :
    Except AppErr (List Comp) :=
  let abs := if db_path.absolute then db_path else joinPath cwd db_path
  if allowed_dirs.isEmpty then
    Except.ok (normalize_lexical abs)
  else
    let absNorm := normalize_lexical abs
    if anyAllowed absNorm allowed_dirs then
      Except.ok absNorm
    else
      Except.error (AppErr.pathNotAllowed absNorm)

/-! ## Connections, the engine boundary, and the worker
(`core/connection.rs`, `core/readonly.rs`, `core/query.rs`)

The SQLite engine is abstract: a connection carries an abstract database
state `δ` plus the connection-local last-insert rowid, and an `Engine`
provides the primitive operations the core calls.  Fallible engine
operations fail with a message string, which the core converts into
`AppErr.sqlError` (the Rust `From<rusqlite::Error> for AppError`
conversion). -/

structure Conn (δ : Type) where
  db : δ
  lastInsertRowid : Int

/-- Worker-level query results; the row objects of `QueryResult`
(`core/types.rs`) are abstracted to strings. -/
structure QueryResult where
  columns : List ColumnMeta
  rows : List String
  truncated : Bool
  next_offset : Option Nat
deriving DecidableEq

structure Engine (δ : Type) where
  /-- `sqlite3_stmt_readonly` on the prepared statement: prepare-only, no
  state change; fails when preparation fails. -/
  prepareReadonly : Conn δ → String → Except String Bool
  /-- The prepare/fetch work of `run_query`; the statement may mutate the
  database (the `Query` task performs no read-only check). -/
  engineQuery : Conn δ → String → Nat → Option Nat → Except String QueryResult × Conn δ
  /-- `Connection::execute`: rows changed plus the successor connection
  state (which carries the possibly-updated last-insert rowid). -/
  engineExec : Conn δ → String → Except String (Nat × Conn δ)
  /-- The `sqlite_master` table-name query of `list_tables`. -/
  engineTables : Conn δ → Except String (List String)
  /-- The `PRAGMA table_info` introspection used by `list_columns`. -/
  engineColumns : Conn δ → List Char → List ColumnMeta

/-- Embeds `is_sql_readonly` (`core/readonly.rs`): prepare the statement
and report the engine's read-only classification; a prepare failure
surfaces as `SqlError`. -/
def is_sql_readonly (eng : Engine δ) (c : Conn δ) (sql : String) : Except AppErr Bool :=
  match eng.prepareReadonly c sql with
  | Except.error m => Except.error (AppErr.sqlError m)
  | Except.ok b => Except.ok b

/-- The `DbTask::Query` body: run the query, converting engine failures to
`SqlError`. -/
def runQueryTask (eng : Engine δ) (c : Conn δ) (sql : String) (limit : Nat)
    (offset : Option Nat) : Except AppErr QueryResult × Conn δ :=
  match eng.engineQuery c sql limit offset with
  | (Except.error m, c') => (Except.error (AppErr.sqlError m), c')
  | (Except.ok qr, c') => (Except.ok qr, c')

/-- Embeds the `DbTask::ReadQuery` branch of `db_worker_main`
(`core/connection.rs` lines 170–181): classify first, execute via
`run_query` only when classified read-only, reply `NotReadonly` when not,
and forward a classification error.  The middle component is an
instrumentation flag recording whether `run_query` was invoked at all. -/
def handleReadQuery (eng : Engine δ) (c : Conn δ) (sql : String) (limit : Nat)
    (offset : Option Nat) : Except AppErr QueryResult × Bool × Conn δ :=
  match is_sql_readonly eng c sql with
  | Except.ok true =>
      let (r, c') := runQueryTask eng c sql limit offset
      (r, true, c')
  | Except.ok false => (Except.error AppErr.notReadonly, false, c)
  | Except.error e => (Except.error e, false, c)

/-- Embeds `run_execute` (`core/query.rs`): execute the statement, then
unconditionally read the connection's last-insert rowid and report it as
`Some`. -/
def run_execute (eng : Engine δ) (c : Conn δ) (sql : String) :
    Except AppErr ExecResult × Conn δ :=
  match eng.engineExec c sql with
  | Except.error m => (Except.error (AppErr.sqlError m), c)
  | Except.ok (changes, c') =>
      (Except.ok ⟨changes, some c'.lastInsertRowid⟩, c')

/-- The `DbTask::Tables` body (`list_tables` of `core/schema.rs`). -/
def listTablesTask (eng : Engine δ) (c : Conn δ) : Except AppErr (List String) :=
  match eng.engineTables c with
  | Except.error m => Except.error (AppErr.sqlError m)
  | Except.ok ts => Except.ok ts

/-- Embeds `DbTask` (`core/connection.rs`); the reply channels are
implicit (one reply per task, in order). -/
inductive DbTask where
  | query : String → Nat → Option Nat → DbTask
  | readQuery : String → Nat → Option Nat → DbTask
  | exec : String → DbTask
  | tables : DbTask
  | columns : List Char → DbTask

instance exceptDecEq {ε α : Type} [DecidableEq ε] [DecidableEq α] :
    DecidableEq (Except ε α) := fun a b =>
  match a, b with
  | Except.error e, Except.error f =>
      if h : e = f then isTrue (by rw [h]) else isFalse (by simp [h])
  | Except.error _, Except.ok _ => isFalse (by simp)
  | Except.ok _, Except.error _ => isFalse (by simp)
  | Except.ok x, Except.ok y =>
      if h : x = y then isTrue (by rw [h]) else isFalse (by simp [h])

/-- The reply a task's oneshot channel receives. -/
inductive Reply where
  | queryR : Except AppErr QueryResult → Reply
  | execR : Except AppErr ExecResult → Reply
  | tablesR : Except AppErr (List String) → Reply
  | columnsR : Except AppErr (List ColumnMeta) → Reply
deriving DecidableEq

/-- Embeds `respond_err` (`core/connection.rs`): reply the given error on
whichever channel the task carries. -/
def respond_err (task : DbTask) (e : AppErr) : Reply :=
  match task with
  | DbTask.query _ _ _ => Reply.queryR (Except.error e)
  | DbTask.readQuery _ _ _ => Reply.queryR (Except.error e)
  | DbTask.exec _ => Reply.execR (Except.error e)
  | DbTask.tables => Reply.tablesR (Except.error e)
  | DbTask.columns _ => Reply.columnsR (Except.error e)

/-- One iteration of the running worker's `match task` dispatch
(`core/connection.rs` lines 159–196). -/
def handleTask (eng : Engine δ) (c : Conn δ) : DbTask → Reply × Conn δ
  | DbTask.query sql limit offset =>
      let (r, c') := runQueryTask eng c sql limit offset
      (Reply.queryR r, c')
  | DbTask.readQuery sql limit offset =>
      let (r, _executed, c') := handleReadQuery eng c sql limit offset
      (Reply.queryR r, c')
  | DbTask.exec sql =>
      let (r, c') := run_execute eng c sql
      (Reply.execR r, c')
  | DbTask.tables => (Reply.tablesR (listTablesTask eng c), c)
  | DbTask.columns table =>
      (Reply.columnsR (list_columns (eng.engineColumns c) table), c)

/-- The draining loop of `db_worker_main` after a failed open: every task
still received gets the open error as its reply. -/
def drainErr (e : AppErr) : List DbTask → List Reply
  | [] => []
  | t :: ts => respond_err t e :: drainErr e ts

/-- The running worker's receive loop: process tasks strictly in order,
threading the connection state; one reply per task. -/
def workerGo (eng : Engine δ) : Conn δ → List DbTask → List Reply
  | _, [] => []
  | c, t :: ts =>
      let (r, c') := handleTask eng c t
      r :: workerGo eng c' ts

/-- Connection state after the worker has processed a task list. -/
def connAfter (eng : Engine δ) : Conn δ → List DbTask → Conn δ
  | c, [] => c
  | c, t :: ts => connAfter eng (handleTask eng c t).2 ts

/-- Embeds `db_worker_main` (`core/connection.rs`): on a failed open,
drain every task with the open error and terminate; on a successful open,
process the task queue in FIFO order.  `tasks` is the full sequence of
tasks received before the channel closes. -/
def db_worker_main (eng : Engine δ) (openResult : Except AppErr (Conn δ))
    (tasks : List DbTask) : List Reply :=
  match openResult with
  | Except.error e => drainErr e tasks
  | Except.ok c => workerGo eng c tasks

/-! ## Connection registry (`core/connection.rs`, `ensure_worker`)

The `HashMap<PathBuf, WorkerHandle>` is modelled as an association list
keyed by Rust path-component sequences (the equality `PathBuf` keys use);
workers are identified by the order in which they were spawned. -/

structure Registry where
  table : List (List Comp × Nat)
  nextId : Nat

/-- Lookup in the registry map. -/
def lookupKey : List (List Comp × Nat) → List Comp → Option Nat
  | [], _ => none
  | (k, v) :: rest, key => if k = key then some v else lookupKey rest key

/-- Embeds `ensure_worker` (`core/connection.rs`): canonicalize the path
with `canonicalize_lossy`, return the existing worker for that key if
present, otherwise spawn a fresh worker and insert it.  Returns the new
registry state and the id of the worker backing the returned handle. -/
def ensure_worker (reg : Registry) (cwd : RPath) (db_path : RPath) : Registry × Nat :=
  let key := rustComponents (canonicalize_lossy cwd db_path)
  match lookupKey reg.table key with
  | some id => (reg, id)
  | none => (⟨(key, reg.nextId) :: reg.table, reg.nextId + 1⟩, reg.nextId)

/-! ## Pagination lemmas -/

theorem fetchLoop_no_trunc {α : Type} (limit off0 : Nat) :
    ∀ (stream acc : List α), acc.length + stream.length ≤ limit →
      fetchLoop limit off0 acc stream = ⟨acc ++ stream, false, none, stream.length⟩ := by
  intro stream
  induction stream with
  | nil => intro acc h; simp [fetchLoop]
  | cons r rest ih =>
    intro acc h
    simp only [List.length_cons] at h
    have hlt : ¬ limit ≤ acc.length := by omega
    simp only [fetchLoop, if_neg hlt]
    rw [ih (acc ++ [r]) (by simp; omega)]
    simp

theorem fetchLoop_trunc {α : Type} (limit off0 : Nat) :
    ∀ (stream acc : List α), acc.length ≤ limit → limit < acc.length + stream.length →
      fetchLoop limit off0 acc stream =
        ⟨acc ++ stream.take (limit - acc.length), true, some (off0 + limit),
          (limit - acc.length) + 1⟩ := by
  intro stream
  induction stream with
  | nil =>
    intro acc h1 h2
    simp only [List.length_nil] at h2
    omega
  | cons r rest ih =>
    intro acc h1 h2
    simp only [List.length_cons] at h2
    by_cases hb : limit ≤ acc.length
    · have heq : acc.length = limit := Nat.le_antisymm h1 hb
      simp [fetchLoop, if_pos hb, heq, Nat.sub_self]
    · push_neg at hb
      simp only [fetchLoop, if_neg (Nat.not_le.mpr hb)]
      rw [ih (acc ++ [r]) (by simp; omega) (by simp; omega)]
      have hk : limit - acc.length = (limit - (acc.length + 1)) + 1 := by omega
      simp [hk, List.take_succ_cons, List.append_assoc]

theorem fetchLoop_next_offset {α : Type} (limit off0 : Nat) :
    ∀ (stream acc : List α),
      (fetchLoop limit off0 acc stream).next_offset =
        (if (fetchLoop limit off0 acc stream).truncated then
          some (off0 + (fetchLoop limit off0 acc stream).rows.length)
        else none) := by
  intro stream
  induction stream with
  | nil => intro acc; simp [fetchLoop]
  | cons r rest ih =>
    intro acc
    by_cases hb : limit ≤ acc.length
    · simp [fetchLoop, if_pos hb]
    · simp only [fetchLoop, if_neg hb]
      exact ih (acc ++ [r])

theorem fetchLoop_fetch_bound {α : Type} (limit off0 : Nat) :
    ∀ (stream acc : List α), acc.length ≤ limit →
      (fetchLoop limit off0 acc stream).engineFetches + acc.length ≤ limit + 1 := by
  intro stream
  induction stream with
  | nil => intro acc h; simp [fetchLoop]; omega
  | cons r rest ih =>
    intro acc h
    by_cases hb : limit ≤ acc.length
    · simp [fetchLoop, if_pos hb]; omega
    · push_neg at hb
      simp only [fetchLoop, if_neg (Nat.not_le.mpr hb)]
      have := ih (acc ++ [r]) (by simp; omega)
      simp only [List.length_append, List.length_singleton] at this
      simp
      omega

/-- C7: in every `run_query` result, `next_offset` is present iff
`truncated` is true; when present it equals the input offset (0 when
absent) plus the number of rows returned; and the engine is asked for at
most `limit + 1` rows. -/
theorem C7_next_offset_truncated_fetch_bound {α : Type} (dbRows : List α)
    (limit : Nat) (offset : Option Nat) :
    ((run_query dbRows limit offset).next_offset.isSome = true ↔
        (run_query dbRows limit offset).truncated = true) ∧
    ((run_query dbRows limit offset).truncated = true →
        (run_query dbRows limit offset).next_offset =
          some (offset.getD 0 + (run_query dbRows limit offset).rows.length)) ∧
    (run_query dbRows limit offset).engineFetches ≤ limit + 1 := by
  have hno : (run_query dbRows limit offset).next_offset =
      (if (run_query dbRows limit offset).truncated then
        some (offset.getD 0 + (run_query dbRows limit offset).rows.length)
      else none) :=
    fetchLoop_next_offset limit (offset.getD 0) (engineStream dbRows limit offset) []
  refine ⟨?_, ?_, ?_⟩
  · rw [hno]
    cases h : (run_query dbRows limit offset).truncated <;> simp [h]
  · intro ht
    rw [hno, if_pos ht]
  · have hfb := fetchLoop_fetch_bound limit (offset.getD 0)
      (engineStream dbRows limit offset) [] (Nat.zero_le limit)
    show (fetchLoop limit (offset.getD 0) [] (engineStream dbRows limit offset)).engineFetches
      ≤ limit + 1
    simpa using hfb

/-- Witness for C7 at a concrete input: 10 rows, limit 3, no offset. -/
theorem C7_witness :
    (run_query (List.range 10) 3 none).truncated = true ∧
    (run_query (List.range 10) 3 none).next_offset =
      some ((none : Option Nat).getD 0 + (run_query (List.range 10) 3 none).rows.length) :=
  ⟨by decide, (C7_next_offset_truncated_fetch_bound (List.range 10) 3 none).2.1 (by decide)⟩

/-- Counterexample for C1 as stated: with a 10-row result set and
`limit = 3`, the calls at offsets 0, 3 and 6 all report `truncated =
false`, not `truncated = true` — the offset wrapper
`SELECT * FROM (sql) LIMIT 3 OFFSET k` makes the engine yield at most 3
rows, so the fetch loop never sees a 4th row. -/
theorem C1_counterexample :
    (run_query (List.range 10) 3 (some 0)).truncated = false ∧
    (run_query (List.range 10) 3 (some 3)).truncated = false ∧
    (run_query (List.range 10) 3 (some 6)).truncated = false := by
  decide

/-- C1 (amended): for a 10-row result set run with `limit = 3`, the calls
at offsets 0, 3, 6 and 9 return the consecutive (hence pairwise-disjoint)
row windows whose concatenation reconstructs the full set, the call at
offset 9 returns exactly 1 row, and every one of the four calls reports
`truncated = false` (when an offset is given the wrapper caps the engine
at `limit` rows, so truncation is never flagged). -/
theorem C1_pagination_windows {α : Type} (dbRows : List α) (h : dbRows.length = 10) :
    (run_query dbRows 3 (some 0)).rows = (dbRows.drop 0).take 3 ∧
    (run_query dbRows 3 (some 3)).rows = (dbRows.drop 3).take 3 ∧
    (run_query dbRows 3 (some 6)).rows = (dbRows.drop 6).take 3 ∧
    (run_query dbRows 3 (some 9)).rows = (dbRows.drop 9).take 3 ∧
    (run_query dbRows 3 (some 9)).rows.length = 1 ∧
    (run_query dbRows 3 (some 0)).truncated = false ∧
    (run_query dbRows 3 (some 3)).truncated = false ∧
    (run_query dbRows 3 (some 6)).truncated = false ∧
    (run_query dbRows 3 (some 9)).truncated = false ∧
    (run_query dbRows 3 (some 0)).rows ++ (run_query dbRows 3 (some 3)).rows ++
      (run_query dbRows 3 (some 6)).rows ++ (run_query dbRows 3 (some 9)).rows = dbRows := by
  have key : ∀ off : Nat, run_query dbRows 3 (some off) =
      ⟨(dbRows.drop off).take 3, false, none, ((dbRows.drop off).take 3).length⟩ := by
    intro off
    have h0 : ([] : List α).length + ((dbRows.drop off).take 3).length ≤ 3 := by
      simp [List.length_take]
    simpa [run_query, engineStream] using
      fetchLoop_no_trunc 3 off ((dbRows.drop off).take 3) [] h0
  have s3 : (dbRows.drop 3).take 3 ++ dbRows.drop 6 = dbRows.drop 3 := by
    have := List.take_append_drop 3 (dbRows.drop 3)
    rw [List.drop_drop] at this
    norm_num at this
    exact this
  have s6 : (dbRows.drop 6).take 3 ++ dbRows.drop 9 = dbRows.drop 6 := by
    have := List.take_append_drop 3 (dbRows.drop 6)
    rw [List.drop_drop] at this
    norm_num at this
    exact this
  have h9 : (dbRows.drop 9).take 3 = dbRows.drop 9 :=
    List.take_of_length_le (by simp [h])
  refine ⟨by rw [key 0], by rw [key 3], by rw [key 6], by rw [key 9], ?_, by rw [key 0],
    by rw [key 3], by rw [key 6], by rw [key 9], ?_⟩
  · rw [key 9]
    simp [List.length_take, h]
  · rw [key 0, key 3, key 6, key 9]
    show ((((dbRows.drop 0).take 3 ++ (dbRows.drop 3).take 3) ++ (dbRows.drop 6).take 3) ++
      (dbRows.drop 9).take 3) = dbRows
    rw [List.drop_zero, h9, List.append_assoc, List.append_assoc, s6, s3]
    exact List.take_append_drop 3 dbRows

/-- Witness for C1 at a concrete 10-row input. -/
theorem C1_witness :
    (List.range 10).length = 10 ∧
    (run_query (List.range 10) 3 (some 9)).rows.length = 1 :=
  ⟨by decide, (C1_pagination_windows (List.range 10) (by decide)).2.2.2.2.1⟩

/-- C8 (amended): the resolved cap equals
`min(requested limit (defaulting to max_rows), max_rows)` floored at 1,
is at least 1, and does not exceed the process-wide ceiling `max_rows`
whenever that ceiling is itself at least 1 (with `max_rows = 0` the floor
of 1 exceeds the ceiling). -/
theorem C8_effective_limit_cap (requested : Option Nat) (max_rows : Nat) :
    (effective_limit requested max_rows).max_rows =
      Nat.max (Nat.min (requested.getD max_rows) max_rows) 1 ∧
    (1 ≤ max_rows → (effective_limit requested max_rows).max_rows ≤ max_rows) ∧
    1 ≤ (effective_limit requested max_rows).max_rows := by
  refine ⟨rfl, fun h => ?_, ?_⟩
  · exact Nat.max_le.mpr ⟨Nat.min_le_right _ _, h⟩
  · exact Nat.le_max_right _ 1

/-- Counterexample for C8 as stated: with `max_rows = 0` the resolved cap
is 1, which exceeds the process-wide ceiling. -/
theorem C8_counterexample :
    (effective_limit none 0).max_rows = 1 ∧ ¬ (effective_limit none 0).max_rows ≤ 0 := by
  decide

/-- Witness for C8 at a concrete input. -/
theorem C8_witness : (effective_limit (some 5) 3).max_rows ≤ 3 :=
  (C8_effective_limit_cap (some 5) 3).2.1 (by decide)

/-! ## Identifier validation -/

theorem safe_identifier_eq_grammar (s : List Char) :
    is_safe_identifier s = identGrammar s := by
  cases s <;> rfl

theorem safe_table_ref_eq_grammar (s : List Char) :
    is_safe_table_ref s = tableRefGrammar s := by
  unfold is_safe_table_ref tableRefGrammar
  cases hsp : splitOnDot s with
  | nil => rfl
  | cons first parts =>
    cases parts with
    | nil =>
      cases hv : is_safe_identifier first <;>
        simp [hv, ← safe_identifier_eq_grammar]
    | cons second more =>
      cases more with
      | nil =>
        cases hv : is_safe_identifier first <;>
          simp [hv, ← safe_identifier_eq_grammar]
      | cons x xs =>
        cases hv : is_safe_identifier first <;> simp [hv]

/-- Counterexample for C4 as stated: `a.b` matches the claimed
`schema.table` grammar, yet `list_columns` rejects it with
`InvalidRequest` before consulting the engine, because it validates with
`is_safe_identifier`, which admits no `.` separator. -/
theorem C4_counterexample :
    tableRefGrammar ['a', '.', 'b'] = true ∧
    list_columns (fun _ => []) ['a', '.', 'b'] =
      Except.error (AppErr.invalidRequest
        ("invalid table identifier: " ++ String.mk ['a', '.', 'b'])) := by
  constructor
  · decide
  · rfl

/-- C4 (amended): `list_columns` validates its table argument against the
single-identifier grammar [A-Za-z_][A-Za-z0-9_]* only: exactly the strings
matching that grammar proceed to the engine's column introspection, and
every other string — including a dotted `schema.table` that matches the
two-segment grammar accepted elsewhere by `is_safe_table_ref` — fails
with `InvalidRequest` before any SQL is run. -/
theorem C4_list_columns_validation (introspect : List Char → List ColumnMeta)
    (table : List Char) :
    (identGrammar table = true →
        list_columns introspect table = Except.ok (introspect table)) ∧
    (identGrammar table = false →
        list_columns introspect table =
          Except.error (AppErr.invalidRequest
            ("invalid table identifier: " ++ String.mk table))) ∧
    is_safe_table_ref table = tableRefGrammar table := by
  refine ⟨?_, ?_, safe_table_ref_eq_grammar table⟩ <;>
    intro hg <;>
    simp [list_columns, safe_identifier_eq_grammar, hg]

/-- Witness for C4 at concrete inputs. -/
theorem C4_witness :
    list_columns (fun _ => []) ['t', '1'] = Except.ok [] :=
  (C4_list_columns_validation (fun _ => []) ['t', '1']).1 (by decide)

/-! ## Read-only gate and execute -/

/-- C5: a ReadQuery task classifies first via the engine's read-only
introspection; the reply is the distinguished `NotReadonly` error exactly
when the statement is classified not read-only; `run_query` is invoked
exactly when it is classified read-only; when it is not invoked the
connection state is untouched; and on a read-only classification the reply
is exactly the `run_query` result. -/
theorem C5_read_query_gate {δ : Type} (eng : Engine δ) (c : Conn δ) (sql : String)
    (limit : Nat) (offset : Option Nat) :
    ((handleReadQuery eng c sql limit offset).1 = Except.error AppErr.notReadonly ↔
        eng.prepareReadonly c sql = Except.ok false) ∧
    ((handleReadQuery eng c sql limit offset).2.1 = true ↔
        eng.prepareReadonly c sql = Except.ok true) ∧
    ((handleReadQuery eng c sql limit offset).2.1 = false →
        (handleReadQuery eng c sql limit offset).2.2 = c) ∧
    (eng.prepareReadonly c sql = Except.ok true →
        (handleReadQuery eng c sql limit offset).1 =
          (runQueryTask eng c sql limit offset).1) := by
  unfold handleReadQuery is_sql_readonly
  cases hp : eng.prepareReadonly c sql with
  | error m => simp
  | ok b =>
    cases b with
    | false => simp
    | true =>
      unfold runQueryTask
      cases hq : eng.engineQuery c sql limit offset with
      | mk r c' => cases r <;> simp

/-- Witness engine over a trivial database state, for concrete
instantiations. -/
def unitEngine : Engine Unit where
  prepareReadonly := fun _ sql => Except.ok (sql == "SELECT 1")
  engineQuery := fun c _ _ _ => (Except.ok ⟨[], [], false, none⟩, c)
  engineExec := fun c _ => Except.ok (0, c)
  engineTables := fun _ => Except.ok []
  engineColumns := fun _ _ => []

/-- Witness for C5: a statement classified not read-only gets the
`NotReadonly` reply. -/
theorem C5_witness :
    (handleReadQuery unitEngine ⟨(), 0⟩ "DELETE FROM t" 5 none).1 =
      Except.error AppErr.notReadonly :=
  (C5_read_query_gate unitEngine ⟨(), 0⟩ "DELETE FROM t" 5 none).1.mpr (by decide)

/-- C10: `run_execute` reports `last_insert_rowid` as `Some` of the
connection's current last-insert rowid on every successful statement —
never `None` — so a statement that inserts nothing (leaving the
connection's rowid unchanged) reports the rowid of the most recent prior
insert on that connection. -/
theorem C10_run_execute_rowid {δ : Type} (eng : Engine δ) (c : Conn δ) (sql : String) :
    (∀ (n : Nat) (c' : Conn δ), eng.engineExec c sql = Except.ok (n, c') →
        (run_execute eng c sql).1 = Except.ok ⟨n, some c'.lastInsertRowid⟩ ∧
        (c'.lastInsertRowid = c.lastInsertRowid →
          (run_execute eng c sql).1 = Except.ok ⟨n, some c.lastInsertRowid⟩)) ∧
    (∀ r : ExecResult, (run_execute eng c sql).1 = Except.ok r →
        r.last_insert_rowid ≠ none) := by
  unfold run_execute
  cases he : eng.engineExec c sql with
  | error m => simp
  | ok p =>
    obtain ⟨n0, c0⟩ := p
    constructor
    · intro n c' hok
      have hpair := Except.ok.inj hok
      have h1 : n0 = n := congrArg Prod.fst hpair
      have h2 : c0 = c' := congrArg Prod.snd hpair
      subst h1
      subst h2
      exact ⟨rfl, fun hrw => by simp [hrw]⟩
    · intro r hr
      simp only [Except.ok.injEq] at hr
      rw [← hr]
      simp

/-- Witness for C10: a DELETE on a connection whose last insert produced
rowid 7 still reports `Some 7`. -/
theorem C10_witness :
    (run_execute unitEngine ⟨(), 7⟩ "DELETE FROM t").1 = Except.ok ⟨0, some 7⟩ :=
  ((C10_run_execute_rowid unitEngine ⟨(), 7⟩ "DELETE FROM t").1 0 ⟨(), 7⟩ rfl).2 rfl

/-! ## Path sandboxing -/

/-- The user-supplied path resolved against the current working directory
(absolute paths pass through unchanged). -/
def resolvedPath (cwd p : RPath) : RPath :=
  if p.absolute then p else joinPath cwd p

theorem anyAllowed_iff (absNorm : List Comp) (ds : List RPath) :
    anyAllowed absNorm ds = true ↔
      ∃ d ∈ ds, startsWithComps absNorm (normalize_lexical d) = true := by
  induction ds with
  | nil => simp [anyAllowed]
  | cons d rest ih => simp [anyAllowed, ih, Bool.or_eq_true]

/-- C6: with an empty allow-list every resolved path is accepted; with a
non-empty allow-list the lexically-normalized resolved path is accepted
iff some allowed root (lexically normalized) is a component prefix of it,
and otherwise validation fails with `PathNotAllowed` carrying the
normalized resolved path.  The decision is a pure function of the path,
the working directory and the allow-list (no filesystem access). -/
theorem C6_validate_db_path_sandbox (cwd db_path : RPath) (allowed_dirs : List RPath) :
    (allowed_dirs = [] →
        validate_db_path cwd db_path allowed_dirs =
          Except.ok (normalize_lexical (resolvedPath cwd db_path))) ∧
    (allowed_dirs ≠ [] →
        (validate_db_path cwd db_path allowed_dirs =
            Except.ok (normalize_lexical (resolvedPath cwd db_path)) ↔
          ∃ d ∈ allowed_dirs,
            startsWithComps (normalize_lexical (resolvedPath cwd db_path))
              (normalize_lexical d) = true) ∧
        ((¬ ∃ d ∈ allowed_dirs,
            startsWithComps (normalize_lexical (resolvedPath cwd db_path))
              (normalize_lexical d) = true) →
          validate_db_path cwd db_path allowed_dirs =
            Except.error (AppErr.pathNotAllowed
              (normalize_lexical (resolvedPath cwd db_path))))) := by
  cases allowed_dirs with
  | nil =>
    refine ⟨fun _ => rfl, fun hne => absurd rfl hne⟩
  | cons d0 rest =>
    refine ⟨fun hnil => by simp at hnil, fun _ => ?_⟩
    by_cases hA : anyAllowed (normalize_lexical (resolvedPath cwd db_path)) (d0 :: rest) = true
    · have hval : validate_db_path cwd db_path (d0 :: rest) =
          Except.ok (normalize_lexical (resolvedPath cwd db_path)) := by
        simp [validate_db_path, resolvedPath] at hA ⊢
        simp [hA]
      refine ⟨?_, fun hno => absurd ((anyAllowed_iff _ _).mp hA) hno⟩
      rw [hval]
      exact ⟨fun _ => (anyAllowed_iff _ _).mp hA, fun _ => rfl⟩
    · have hfalse : anyAllowed (normalize_lexical (resolvedPath cwd db_path)) (d0 :: rest)
          = false := by
        cases hv : anyAllowed (normalize_lexical (resolvedPath cwd db_path)) (d0 :: rest)
        · rfl
        · exact absurd hv hA
      have hval : validate_db_path cwd db_path (d0 :: rest) =
          Except.error (AppErr.pathNotAllowed
            (normalize_lexical (resolvedPath cwd db_path))) := by
        simp [validate_db_path, resolvedPath] at hfalse ⊢
        simp [hfalse]
      refine ⟨?_, fun _ => hval⟩
      rw [hval]
      constructor
      · intro hcontra
        exact Except.noConfusion hcontra
      · intro hc
        exact absurd ((anyAllowed_iff _ _).mpr hc) hA

/-- Witness for C6: `h/a` resolved under cwd `/h` is accepted against the
allow-list `[/h]`. -/
theorem C6_witness :
    validate_db_path (⟨true, [Seg.name "h"]⟩ : RPath) (⟨false, [Seg.name "a"]⟩ : RPath)
        [(⟨true, [Seg.name "h"]⟩ : RPath)] =
      Except.ok (normalize_lexical (resolvedPath (⟨true, [Seg.name "h"]⟩ : RPath)
        (⟨false, [Seg.name "a"]⟩ : RPath))) :=
  ((C6_validate_db_path_sandbox ⟨true, [Seg.name "h"]⟩ ⟨false, [Seg.name "a"]⟩
      [⟨true, [Seg.name "h"]⟩]).2 (by simp)).1.mpr
    ⟨⟨true, [Seg.name "h"]⟩, by simp, by decide⟩

/-! ## Worker failure modes -/

/-- C9: if the database open fails, every task received gets the open
error as its reply (the drain loop) and the worker terminates; if the open
succeeds, every task gets exactly one reply of its own, and processing a
prefix of the queue — whatever its failures — never stops the worker
from processing the rest: the replies for `ts1 ++ ts2` are the replies for
`ts1` followed by the replies for `ts2` from the evolved connection
state. -/
theorem C9_worker_failure_modes {δ : Type} (eng : Engine δ) :
    (∀ (e : AppErr) (tasks : List DbTask),
        db_worker_main eng (Except.error e) tasks =
          tasks.map (fun t => respond_err t e)) ∧
    (∀ (c : Conn δ) (tasks : List DbTask),
        (db_worker_main eng (Except.ok c) tasks).length = tasks.length) ∧
    (∀ (c : Conn δ) (ts1 ts2 : List DbTask),
        db_worker_main eng (Except.ok c) (ts1 ++ ts2) =
          db_worker_main eng (Except.ok c) ts1 ++
            db_worker_main eng (Except.ok (connAfter eng c ts1)) ts2) := by
  have hlen : ∀ (tasks : List DbTask) (c : Conn δ),
      (workerGo eng c tasks).length = tasks.length := by
    intro tasks
    induction tasks with
    | nil => intro c; rfl
    | cons t ts ih =>
      intro c
      show ((handleTask eng c t).1 :: workerGo eng (handleTask eng c t).2 ts).length
        = ts.length + 1
      rw [List.length_cons, ih (handleTask eng c t).2]
  have hsplit : ∀ (ts1 ts2 : List DbTask) (c : Conn δ),
      workerGo eng c (ts1 ++ ts2) =
        workerGo eng c ts1 ++ workerGo eng (connAfter eng c ts1) ts2 := by
    intro ts1
    induction ts1 with
    | nil => intro ts2 c; rfl
    | cons t ts ih =>
      intro ts2 c
      show (handleTask eng c t).1 :: workerGo eng (handleTask eng c t).2 (ts ++ ts2) =
        ((handleTask eng c t).1 :: workerGo eng (handleTask eng c t).2 ts) ++
          workerGo eng (connAfter eng (handleTask eng c t).2 ts) ts2
      rw [List.cons_append]
      exact congrArg (fun l => (handleTask eng c t).1 :: l) (ih ts2 (handleTask eng c t).2)
  refine ⟨?_, fun c tasks => hlen tasks c, fun c ts1 ts2 => hsplit ts1 ts2 c⟩
  intro e tasks
  induction tasks with
  | nil => rfl
  | cons t ts ih =>
    show respond_err t e :: drainErr e ts = _
    rw [List.map_cons, ← ih]
    rfl

/-! ## Registry identity -/

theorem lookupKey_cons_self (t : List (List Comp × Nat)) (k : List Comp) (v : Nat) :
    lookupKey ((k, v) :: t) k = some v := by
  simp [lookupKey]

/-- Counterexample for C2 as stated: `/a/b/../x` and `/a/x` lexically
normalize to the same canonical path, yet `ensure_worker` — which keys the
registry by `canonicalize_lossy`, i.e. the absolutized path with `..`
segments unresolved — spawns two distinct workers for them. -/
theorem C2_counterexample :
    normalize_lexical (canonicalize_lossy ⟨true, []⟩
        ⟨true, [Seg.name "a", Seg.name "b", Seg.dotdot, Seg.name "x"]⟩) =
      normalize_lexical (canonicalize_lossy ⟨true, []⟩
        ⟨true, [Seg.name "a", Seg.name "x"]⟩) ∧
    (ensure_worker (ensure_worker ⟨[], 0⟩ ⟨true, []⟩
        ⟨true, [Seg.name "a", Seg.name "b", Seg.dotdot, Seg.name "x"]⟩).1 ⟨true, []⟩
        ⟨true, [Seg.name "a", Seg.name "x"]⟩).2 ≠
      (ensure_worker ⟨[], 0⟩ ⟨true, []⟩
        ⟨true, [Seg.name "a", Seg.name "b", Seg.dotdot, Seg.name "x"]⟩).2 := by
  decide

/-- C2 (amended): `ensure_worker` keys workers by the `canonicalize_lossy`
result's component sequence (Rust path equality: `.` segments elided,
`..` segments preserved); two consecutive calls whose paths agree on that
key — rather than on full lexical normalization — return handles backed
by the same worker, on any starting registry state. -/
theorem C2_registry_same_key_same_worker (reg : Registry) (cwd p1 p2 : RPath)
    (h : rustComponents (canonicalize_lossy cwd p1) =
        rustComponents (canonicalize_lossy cwd p2)) :
    (ensure_worker (ensure_worker reg cwd p1).1 cwd p2).2 =
      (ensure_worker reg cwd p1).2 := by
  unfold ensure_worker
  rw [← h]
  cases hl : lookupKey reg.table (rustComponents (canonicalize_lossy cwd p1)) with
  | some id => simp [hl]
  | none => simp [hl, lookupKey_cons_self]

/-- Witness for C2 at the spec's own example: `./a` under cwd `/c` and the
absolute `/c/a` share one worker. -/
theorem C2_witness :
    (ensure_worker (ensure_worker ⟨[], 0⟩ ⟨true, [Seg.name "c"]⟩
        ⟨false, [Seg.dot, Seg.name "a"]⟩).1 ⟨true, [Seg.name "c"]⟩
        ⟨true, [Seg.name "c", Seg.name "a"]⟩).2 =
      (ensure_worker ⟨[], 0⟩ ⟨true, [Seg.name "c"]⟩ ⟨false, [Seg.dot, Seg.name "a"]⟩).2 :=
  C2_registry_same_key_same_worker ⟨[], 0⟩ ⟨true, [Seg.name "c"]⟩
    ⟨false, [Seg.dot, Seg.name "a"]⟩ ⟨true, [Seg.name "c", Seg.name "a"]⟩ (by decide)

/-! ## Lexical normalization: the `..`-at-root behavior -/

theorem pbPop_eq_dropLast :
    ∀ (out : List Comp), out ≠ [] → out ≠ [Comp.root] →
      pbPop out = some out.dropLast := by
  intro out h1 h2
  cases out with
  | nil => exact absurd rfl h1
  | cons c rest =>
    cases c with
    | root =>
      cases rest with
      | nil => exact absurd rfl h2
      | cons d rs => rfl
    | cur => rfl
    | parent => rfl
    | cname s => rfl

theorem lastIsName_concat_name (l : List Comp) (s : String) :
    lastIsName (l ++ [Comp.cname s]) = true := by
  simp [lastIsName, List.getLast?_concat]

/-- Invariant of the normalization accumulator: an optional leading root
followed by named components only. -/
def OkAcc (out : List Comp) : Prop :=
  ∃ (r : Bool) (names : List String),
    out = (if r then [Comp.root] else []) ++ names.map Comp.cname

theorem foldSteps_eq :
    ∀ (cs : List Comp), (∀ c ∈ cs, c ≠ Comp.root) →
      ∀ (out : List Comp), OkAcc out →
        cs.foldl normStep out = cs.foldl specDropStep out := by
  intro cs
  induction cs with
  | nil => intro _ out _; rfl
  | cons c rest ih =>
    intro hcs out hok
    have hc : c ≠ Comp.root := hcs c (List.mem_cons_self c rest)
    have hrest : ∀ x ∈ rest, x ≠ Comp.root :=
      fun x hx => hcs x (List.mem_cons_of_mem c hx)
    have hstep : normStep out c = specDropStep out c ∧ OkAcc (specDropStep out c) := by
      cases c with
      | root => exact absurd rfl hc
      | cur => exact ⟨rfl, hok⟩
      | cname s =>
        obtain ⟨r, names, hout⟩ := hok
        refine ⟨rfl, ⟨r, names ++ [s], ?_⟩⟩
        show out ++ [Comp.cname s] = _
        rw [hout, List.map_append, List.append_assoc]
        rfl
      | parent =>
        obtain ⟨r, names, hout⟩ := hok
        rcases List.eq_nil_or_concat names with hn | ⟨ns, s, hn⟩
        · subst hn
          cases r with
          | false =>
            have hout2 : out = [] := by simpa using hout
            subst hout2
            exact ⟨rfl, ⟨false, [], rfl⟩⟩
          | true =>
            have hout2 : out = [Comp.root] := by simpa using hout
            subst hout2
            exact ⟨rfl, ⟨true, [], rfl⟩⟩
        · subst hn
          have hshape : out = ((if r then [Comp.root] else []) ++ ns.map Comp.cname)
              ++ [Comp.cname s] := by
            rw [hout]
            simp [List.concat_eq_append, List.map_append, List.append_assoc]
          have hlast : lastIsName out = true := by
            rw [hshape]
            exact lastIsName_concat_name _ s
          have hne1 : out ≠ [] := by
            rw [hshape]
            simp
          have hne2 : out ≠ [Comp.root] := by
            intro hcontra
            rw [hcontra] at hlast
            exact absurd hlast (by decide)
          have hpop : pbPop out = some out.dropLast := pbPop_eq_dropLast out hne1 hne2
          refine ⟨?_, ?_⟩
          · show normStep out Comp.parent = specDropStep out Comp.parent
            simp [normStep, specDropStep, hpop, hlast]
          · show OkAcc (specDropStep out Comp.parent)
            simp only [specDropStep, hlast, if_true]
            refine ⟨r, ns, ?_⟩
            rw [hshape, List.dropLast_concat]
    rw [List.foldl_cons, List.foldl_cons, hstep.1]
    exact ih hrest (specDropStep out c) hstep.2

/-- Counterexample for C3 as stated: on the absolute path `/..` the code's
`normalize_lexical` drops the unpoppable `..` (yielding `/`), while the
claimed rule — keep the `..` in place when no poppable segment exists —
yields `/..`. -/
theorem C3_counterexample :
    normalize_lexical ⟨true, [Seg.dotdot]⟩ = [Comp.root] ∧
    specNormalizeKeep ⟨true, [Seg.dotdot]⟩ = [Comp.root, Comp.parent] ∧
    normalize_lexical ⟨true, [Seg.dotdot]⟩ ≠ specNormalizeKeep ⟨true, [Seg.dotdot]⟩ := by
  decide

/-- C3 (amended): lexical normalization drops `.` segments and, on a `..`
segment, pops the last retained normal segment if one exists; when no
poppable segment exists (at a root, or with nothing retained), the `..`
segment is dropped — not kept — in the normalized output:
`normalize_lexical` agrees everywhere with the drop-semantics
normalizer. -/
theorem C3_normalize_lexical_drop_semantics (p : RPath) :
    normalize_lexical p = specNormalizeDrop p := by
  obtain ⟨ab, segs⟩ := p
  have hcore : ∀ c ∈ segs.filterMap segComp, c ≠ Comp.root := by
    intro c hc
    obtain ⟨a, _, ha⟩ := List.mem_filterMap.mp hc
    cases a with
    | dot => exact absurd ha (by simp [segComp])
    | dotdot =>
      have hpc : Comp.parent = c := Option.some.inj ha
      rw [← hpc]
      exact fun h => Comp.noConfusion h
    | name s =>
      have hpc : Comp.cname s = c := Option.some.inj ha
      rw [← hpc]
      exact fun h => Comp.noConfusion h
  unfold normalize_lexical specNormalizeDrop rustComponents
  cases ab with
  | true =>
    show (Comp.root :: segs.filterMap segComp).foldl normStep [] =
      (Comp.root :: segs.filterMap segComp).foldl specDropStep []
    rw [List.foldl_cons, List.foldl_cons]
    show (segs.filterMap segComp).foldl normStep [Comp.root] =
      (segs.filterMap segComp).foldl specDropStep [Comp.root]
    exact foldSteps_eq _ hcore [Comp.root] ⟨true, [], rfl⟩
  | false =>
    cases segs with
    | nil => rfl
    | cons s0 rest =>
      cases s0 with
      | dot =>
        show (Comp.cur :: (Seg.dot :: rest).filterMap segComp).foldl normStep [] =
          (Comp.cur :: (Seg.dot :: rest).filterMap segComp).foldl specDropStep []
        rw [List.foldl_cons, List.foldl_cons]
        show ((Seg.dot :: rest).filterMap segComp).foldl normStep [] =
          ((Seg.dot :: rest).filterMap segComp).foldl specDropStep []
        exact foldSteps_eq _ hcore [] ⟨false, [], rfl⟩
      | dotdot =>
        exact foldSteps_eq _ hcore [] ⟨false, [], rfl⟩
      | name s =>
        exact foldSteps_eq _ hcore [] ⟨false, [], rfl⟩

end SqliteHelper
